import Mathlib

/-!
# Telnet line discipline of `core/connection.go`

A shallow embedding of the per-connection reader pump (`readLines`), the
prompt writer (`writeAndPrompt`), the prompt trigger relay (`triggerPrompts`)
and the connection constructor (`detachConnection`), followed by theorems
about them.

Channel sends are modelled as a trace of events in program order; the
mutable fields of the Go `Connection` struct are passed explicitly.
-/

namespace Core

/-- A Go `byte`, kept as a natural number (socket reads yield values below 256). -/
abbrev Byte := Nat

/-- The constant `Bufsize`: capacity of the read chunk. -/
def Bufsize : Nat := 512

/-- The constant `Newline`, the string `"\r\n"`. -/
def Newline : List Byte := [0x0d, 0x0a]

/-- A send performed by a pump: `line s` is `r <- s` on the completed-line
channel, `raw bs` is a send of the chunk `bs` on the raw-byte channel. -/
inductive Event where
  | line (s : List Byte)
  | raw (bs : List Byte)
deriving DecidableEq, Repr

/-- The mutable fields of the Go `Connection` struct guarded by `bufferLock`. -/
structure Connection where
  buffer : List Byte
  echo : Bool
deriving DecidableEq, Repr

/-- The standard library `strconv.IsPrint` on a rune obtained from a byte: the
Latin-1 fast path of the library (runes above `0xFF` do not arise from
`rune(next)` with `next` a byte, and are mapped to `false`). -/
def IsPrint (r : Nat) : Bool :=
  if r ≤ 0xFF then
    if 0x20 ≤ r ∧ r ≤ 0x7E then true
    else if 0xA1 ≤ r ∧ r ≤ 0xFF then r != 0xAD
    else false
  else false

/-- State of the inner `for i := 0; i < n; i++` loop of `readLines`: the
connection fields, the local `telnet_option_mode`, and the sends made so far. -/
structure Loop where
  conn : Connection
  telnet_option_mode : Bool
  sent : List Event
deriving DecidableEq, Repr

/-- One iteration of the inner loop of `readLines`: the `switch` on `next`. -/
def readByte (st : Loop) (next : Byte) : Loop :=
  if next &&& 0x80 != 0 then
    -- telnet control character
    if next == 0xfd then { st with telnet_option_mode := true } else st
  else if st.telnet_option_mode then
    -- telnet option
    if next == 0x01 then
      { st with conn := { st.conn with echo := true }, telnet_option_mode := false }
    else
      { st with telnet_option_mode := false }
  else if IsPrint next then
    -- printable character
    if st.conn.echo then
      { st with
        conn := { st.conn with buffer := st.conn.buffer ++ [next] },
        sent := st.sent ++ [Event.raw [next]] }
    else
      { st with conn := { st.conn with buffer := st.conn.buffer ++ [next] } }
  else if next == 0x7f && st.conn.echo then
    -- backspace
    if st.conn.buffer.length > 0 then
      { st with
        conn := { st.conn with buffer := st.conn.buffer.take (st.conn.buffer.length - 1) },
        sent := st.sent ++ [Event.raw [0x08, 0x20, 0x08]] }
    else st
  else if st.conn.buffer.length > 0 then
    -- newline
    if st.conn.echo then
      { st with
        conn := { st.conn with buffer := st.conn.buffer.take 0 },
        sent := st.sent ++ [Event.line st.conn.buffer] ++ [Event.raw Newline] }
    else
      { st with
        conn := { st.conn with buffer := st.conn.buffer.take 0 },
        sent := st.sent ++ [Event.line st.conn.buffer] }
  else st

/-- The inner loop of `readLines` over the bytes `b[0..n)` of one chunk,
continuing from a given loop state. -/
def readBytes (st : Loop) (bytes : List Byte) : Loop :=
  bytes.foldl readByte st

/-- One iteration of the outer loop of `readLines` for a successful read of
`chunk`: `telnet_option_mode := false`, then the inner loop. Returns the
connection fields and the sends made, in order. -/
def readChunk (conn : Connection) (chunk : List Byte) : Connection × List Event :=
  let st := readBytes ⟨conn, false, []⟩ chunk
  (st.conn, st.sent)

/-- The function `readLines` on the sequence of chunks obtained by the
successful reads that precede the first read error. -/
def readLines : Connection → List (List Byte) → Connection × List Event
  | conn, [] => (conn, [])
  | conn, chunk :: rest =>
    let r := readChunk conn chunk
    let q := readLines r.1 rest
    (q.1, r.2 ++ q.2)

/-- The completed lines of a trace, in delivery order. -/
def lines : List Event → List (List Byte)
  | [] => []
  | Event.line s :: es => s :: lines es
  | Event.raw _ :: es => lines es

/-- The raw-sink chunks of a trace, in send order. -/
def rawChunks : List Event → List (List Byte)
  | [] => []
  | Event.line _ :: es => rawChunks es
  | Event.raw bs :: es => bs :: rawChunks es

/-- One iteration of `writeAndPrompt` for the request `s`: the chunks sent on
`w`, in order, together with the (untouched) connection fields. -/
def writeAndPrompt (conn : Connection) (s : List Byte) : Connection × List (List Byte) :=
  let buf := conn.buffer
  let pre : List Byte := if conn.echo then [0x0d, 0x00] else Newline
  let first : List (List Byte) := if s ≠ [] then [pre ++ s ++ Newline] else []
  (conn, first ++ [[0x0d, 0x00, 0x3e, 0x20] ++ buf])

/-- The function `triggerPrompts`: each trigger received is forwarded as one
empty string on the prompt-writer queue. -/
def triggerPrompts (p : List Bool) : List (List Byte) :=
  p.map (fun _ => [])

/-- The function `detachConnection`: the connection fields as constructed
(`make([]byte, 256)` is a slice of 256 zero bytes, `echo` is `false`) and the
chunk sent on the raw sink before returning. -/
def detachConnection : Connection × List (List Byte) :=
  (⟨List.replicate 256 0, false⟩, [[0xff, 0xfb, 0x03, 0xff, 0xfb, 0x01]])

/-- Printable ASCII, `0x20..0x7E`. -/
def printable (b : Nat) : Prop := 0x20 ≤ b ∧ b ≤ 0x7E

instance (b : Nat) : Decidable (printable b) := by
  unfold printable; infer_instance

/-- A step in the program order of one pump: taking `conn.bufferLock`,
releasing it, or a (blocking) send on one of the two queues. -/
inductive Act where
  | lock
  | unlock
  | send (e : Event)
deriving DecidableEq, Repr

/-- Program order of one iteration of the outer loop of `readLines`:
`conn.bufferLock.Lock()`, the sends of the inner loop, then
`conn.bufferLock.Unlock()`. -/
def readChunkActs (conn : Connection) (chunk : List Byte) : List Act :=
  [Act.lock] ++ (readChunk conn chunk).2.map Act.send ++ [Act.unlock]

/-- Program order of `readLines` over the chunks read. -/
def readLinesActs : Connection → List (List Byte) → List Act
  | _, [] => []
  | conn, chunk :: rest =>
    readChunkActs conn chunk ++ readLinesActs (readChunk conn chunk).1 rest

/-- Program order of one iteration of `writeAndPrompt`: lock, snapshot,
unlock, and only then the sends on `w`. -/
def writeAndPromptActs (conn : Connection) (s : List Byte) : List Act :=
  [Act.lock, Act.unlock] ++ (writeAndPrompt conn s).2.map (fun c => Act.send (Event.raw c))

/-- No send happens between a `lock` and the following `unlock`; the flag
tells whether the lock is held on entry. -/
def noSendWhileLocked : Bool → List Act → Bool
  | _, [] => true
  | _, Act.lock :: rest => noSendWhileLocked true rest
  | _, Act.unlock :: rest => noSendWhileLocked false rest
  | held, Act.send _ :: rest => !held && noSendWhileLocked held rest

/-- The loop `for s := range wp` of `writeAndPrompt`: each request is paired
with the connection fields seen by its snapshot; the chunks sent on `w`. -/
def writeAndPromptLoop : List (Connection × List Byte) → List (List Byte)
  | [] => []
  | (conn, s) :: rest => (writeAndPrompt conn s).2 ++ writeAndPromptLoop rest

/-- The four pumps started by `detachConnection`. -/
inductive Pump where
  | readLines
  | writeRaw
  | writeAndPrompt
  | triggerPrompts
deriving DecidableEq, Repr

/-- A step in the program order of `detachConnection`: starting a pump, a send
on the raw sink `w`, or returning the connection. -/
inductive DetachStep where
  | go (p : Pump)
  | sendRaw (chunk : List Byte)
  | ret (conn : Connection)
deriving DecidableEq, Repr

/-- Program order of `detachConnection`: the four `go` statements, the send of
the negotiation request on `w`, then `return &connection`. -/
def detachConnectionSteps : List DetachStep :=
  [DetachStep.go Pump.readLines, DetachStep.go Pump.writeRaw,
   DetachStep.go Pump.writeAndPrompt, DetachStep.go Pump.triggerPrompts,
   DetachStep.sendRaw [0xff, 0xfb, 0x03, 0xff, 0xfb, 0x01],
   DetachStep.ret ⟨List.replicate 256 0, false⟩]

/-- Option mode is not armed where one chunk ends and the next one starts. -/
def boundariesUnarmed : Connection → List (List Byte) → Bool
  | _, [] => true
  | _, [_] => true
  | conn, chunk :: next :: rest =>
    !(readBytes ⟨conn, false, []⟩ chunk).telnet_option_mode &&
      boundariesUnarmed (readChunk conn chunk).1 (next :: rest)

/-- A chunk holds `FD`, then only bytes with the high bit set, then `01`. -/
def doEchoIn (chunk : List Nat) : Prop :=
  ∃ pre hs post : List Nat,
    chunk = pre ++ [0xfd] ++ hs ++ [0x01] ++ post ∧ ∀ h ∈ hs, h &&& 0x80 ≠ 0

/-- Buffer and delivered lines hold printable bytes only. -/
def allPrintable (st : Loop) : Prop :=
  (∀ b ∈ st.conn.buffer, printable b) ∧ ∀ l ∈ lines st.sent, ∀ b ∈ l, printable b

/-! ## Basic facts about bytes and the loop -/

set_option maxRecDepth 100000 in
theorem and_0x80_eq_zero_iff_lt : ∀ n : Nat, n < 256 → (n &&& 0x80 = 0 ↔ n < 128) := by
  decide

theorem highBit_clear_of_lt (b : Nat) (h : b < 128) : (b &&& 0x80 != 0) = false := by
  have h0 : b &&& 0x80 = 0 := (and_0x80_eq_zero_iff_lt b (by omega)).mpr h
  simp [h0]

theorem highBit_clear_of_printable (b : Nat) (h : printable b) :
    (b &&& 0x80 != 0) = false :=
  highBit_clear_of_lt b (by unfold printable at h; omega)

theorem highBit_clear_of_and_eq (b : Nat) (h : b &&& 0x80 = 0) :
    (b &&& 0x80 != 0) = false := by
  simp [h]

theorem IsPrint_of_printable (b : Nat) (h : printable b) : IsPrint b = true := by
  unfold IsPrint
  have h2 : 0x20 ≤ b ∧ b ≤ 0x7E := h
  have h1 : b ≤ 0xFF := by omega
  rw [if_pos h1, if_pos h2]

theorem IsPrint_false_of_lt (b : Nat) (h : b < 0x20) : IsPrint b = false := by
  unfold IsPrint
  have h0 : b ≤ 0xFF := by omega
  have h1 : ¬ (0x20 ≤ b ∧ b ≤ 0x7E) := by omega
  have h2 : ¬ (0xA1 ≤ b ∧ b ≤ 0xFF) := by omega
  rw [if_pos h0, if_neg h1, if_neg h2]

theorem IsPrint_del : IsPrint 0x7f = false := by decide

/-- On a byte with the high bit clear, `strconv.IsPrint` is the range test
`0x20..0x7E`. -/
theorem IsPrint_false_of_not_printable (b : Nat) (hb : b &&& 0x80 = 0)
    (h : ¬ printable b) : IsPrint b = false := by
  unfold IsPrint
  by_cases h1 : b ≤ 0xFF
  · have h3 : b < 128 := (and_0x80_eq_zero_iff_lt b (by omega)).mp hb
    have h4 : ¬ (0x20 ≤ b ∧ b ≤ 0x7E) := h
    have h5 : ¬ (0xA1 ≤ b ∧ b ≤ 0xFF) := by omega
    rw [if_pos h1, if_neg h4, if_neg h5]
  · rw [if_neg h1]

theorem readBytes_nil (st : Loop) : readBytes st [] = st := rfl

theorem readBytes_cons (st : Loop) (b : Nat) (bs : List Byte) :
    readBytes st (b :: bs) = readBytes (readByte st b) bs := rfl

theorem readBytes_append (st : Loop) (as bs : List Nat) :
    readBytes st (as ++ bs) = readBytes (readBytes st as) bs := by
  simp [readBytes, List.foldl_append]

/-- A printable byte outside option mode is appended to the buffer and, when
echo is on, sent alone on the raw sink. -/
theorem readByte_printable (st : Loop) (b : Nat) (hb : printable b)
    (hm : st.telnet_option_mode = false) :
    readByte st b =
      { st with
        conn := { st.conn with buffer := st.conn.buffer ++ [b] },
        sent := st.sent ++ (if st.conn.echo then [Event.raw [b]] else []) } := by
  unfold readByte
  rw [highBit_clear_of_printable b hb, IsPrint_of_printable b hb, hm]
  cases he : st.conn.echo <;> simp

/-- A run of printable bytes outside option mode extends the buffer by the run
and, when echo is on, sends each byte as its own raw chunk. -/
theorem readBytes_printable (s : List Nat) :
    ∀ (st : Loop), (∀ b ∈ s, printable b) → st.telnet_option_mode = false →
      readBytes st s =
        { st with
          conn := { st.conn with buffer := st.conn.buffer ++ s },
          sent := st.sent ++
            (if st.conn.echo then s.map (fun b => Event.raw [b]) else []) } := by
  induction s with
  | nil =>
    intro st _ _
    cases he : st.conn.echo <;> simp [readBytes_nil]
  | cons b bs ih =>
    intro st hp hm
    have hb : printable b := hp b (List.mem_cons_self b bs)
    have hbs : ∀ c ∈ bs, printable c := fun c hc => hp c (List.mem_cons_of_mem b hc)
    have hm1 : (readByte st b).telnet_option_mode = false := by
      rw [readByte_printable st b hb hm]; exact hm
    rw [readBytes_cons, ih (readByte st b) hbs hm1, readByte_printable st b hb hm]
    cases he : st.conn.echo <;> simp

/-- A byte with the high bit clear that is neither printable nor an edit key,
arriving outside option mode on a non-empty buffer, completes the line. -/
theorem readByte_terminator (st : Loop) (t : Nat) (ht : t &&& 0x80 = 0)
    (hn : ¬ printable t) (hd : (t == 0x7f && st.conn.echo) = false)
    (hm : st.telnet_option_mode = false) (hbuf : st.conn.buffer ≠ []) :
    readByte st t =
      { st with
        conn := { st.conn with buffer := [] },
        sent := st.sent ++ [Event.line st.conn.buffer] ++
          (if st.conn.echo then [Event.raw Newline] else []) } := by
  have hlen : st.conn.buffer.length > 0 := List.length_pos.mpr hbuf
  unfold readByte
  rw [highBit_clear_of_and_eq t ht, IsPrint_false_of_not_printable t ht hn, hm, hd]
  cases he : st.conn.echo <;> simp [hlen]

theorem lines_append (xs ys : List Event) : lines (xs ++ ys) = lines xs ++ lines ys := by
  induction xs with
  | nil => rfl
  | cons e es ih => cases e <;> simp [lines, ih]

theorem rawChunks_append (xs ys : List Event) :
    rawChunks (xs ++ ys) = rawChunks xs ++ rawChunks ys := by
  induction xs with
  | nil => rfl
  | cons e es ih => cases e <;> simp [rawChunks, ih]

theorem lines_map_raw (s : List Nat) : lines (s.map (fun b => Event.raw [b])) = [] := by
  induction s with
  | nil => rfl
  | cons b bs ih => simp [lines, ih]

theorem rawChunks_map_raw (s : List Nat) :
    rawChunks (s.map (fun b => Event.raw [b])) = s.map (fun b => [b]) := by
  induction s with
  | nil => rfl
  | cons b bs ih => simp [rawChunks, ih]

theorem readLines_single (conn : Connection) (chunk : List Nat) :
    readLines conn [chunk] = readChunk conn chunk := by
  simp [readLines]

/-- One loop iteration never resets `echo`. -/
theorem readByte_echo_mono (st : Loop) (b : Nat) (he : st.conn.echo = true) :
    (readByte st b).conn.echo = true := by
  unfold readByte
  split_ifs <;> simp [he]

theorem readBytes_echo_mono (bs : List Nat) :
    ∀ st : Loop, st.conn.echo = true → (readBytes st bs).conn.echo = true := by
  induction bs with
  | nil => intro st he; exact he
  | cons b bs ih =>
    intro st he
    rw [readBytes_cons]
    exact ih _ (readByte_echo_mono st b he)

theorem readChunk_echo_mono (conn : Connection) (chunk : List Nat)
    (he : conn.echo = true) : (readChunk conn chunk).1.echo = true := by
  unfold readChunk
  exact readBytes_echo_mono chunk _ he

theorem readLines_echo_mono (chunks : List (List Nat)) :
    ∀ conn : Connection, conn.echo = true → (readLines conn chunks).1.echo = true := by
  induction chunks with
  | nil => intro conn he; exact he
  | cons c cs ih =>
    intro conn he
    simp only [readLines]
    exact ih _ (readChunk_echo_mono conn c he)

/-- The three bytes `FF FD 01`, met outside option mode, only switch echo on. -/
theorem readBytes_do_echo (st : Loop) (hm : st.telnet_option_mode = false) :
    readBytes st [0xff, 0xfd, 0x01] =
      { st with conn := { st.conn with echo := true } } := by
  have h1 : readByte st 0xff = st := by
    unfold readByte; simp
  have h2 : readByte st 0xfd = { st with telnet_option_mode := true } := by
    unfold readByte; simp
  have h3 : readByte { st with telnet_option_mode := true } 0x01 =
      { st with conn := { st.conn with echo := true }, telnet_option_mode := false } := by
    unfold readByte; simp
  rw [readBytes_cons, h1, readBytes_cons, h2, readBytes_cons, h3, readBytes_nil, ← hm]

/-- Echo can only be switched on by the byte `01` met in option mode. -/
theorem readByte_echo_on (st : Loop) (b : Nat) (h : (readByte st b).conn.echo = true) :
    st.conn.echo = true ∨ (st.telnet_option_mode = true ∧ b = 0x01) := by
  unfold readByte at h
  split_ifs at h <;> simp_all

/-- Option mode is armed by `FD` and otherwise only survives bytes with the
high bit set. -/
theorem readByte_armed (st : Loop) (b : Nat)
    (h : (readByte st b).telnet_option_mode = true) :
    b = 0xfd ∨ (st.telnet_option_mode = true ∧ b &&& 0x80 ≠ 0) := by
  unfold readByte at h
  split_ifs at h <;> simp_all

/-- Where echo comes from inside one chunk: it was on already, or option mode
was armed on entry and `01` follows after bytes with the high bit set, or the
bytes themselves hold the `FD .. 01` pattern. -/
theorem readBytes_echo_source (bs : List Nat) :
    ∀ st : Loop, (readBytes st bs).conn.echo = true →
      st.conn.echo = true ∨
      (st.telnet_option_mode = true ∧
        ∃ hs post : List Nat, bs = hs ++ [0x01] ++ post ∧ ∀ h ∈ hs, h &&& 0x80 ≠ 0) ∨
      doEchoIn bs := by
  induction bs with
  | nil => intro st h; exact Or.inl h
  | cons b rest ih =>
    intro st h
    rw [readBytes_cons] at h
    rcases ih (readByte st b) h with h1 | ⟨hm1, hs, post, hrest, hhs⟩ | ⟨pre, hs, post, hrest, hhs⟩
    · rcases readByte_echo_on st b h1 with h2 | ⟨hm, hb⟩
      · exact Or.inl h2
      · refine Or.inr (Or.inl ⟨hm, [], rest, ?_, ?_⟩)
        · simp [hb]
        · intro x hx; cases hx
    · rcases readByte_armed st b hm1 with hb | ⟨hm, hb⟩
      · refine Or.inr (Or.inr ⟨[], hs, post, ?_, hhs⟩)
        simp [hb, hrest]
      · refine Or.inr (Or.inl ⟨hm, b :: hs, post, ?_, ?_⟩)
        · simp [hrest]
        · intro x hx
          rcases List.mem_cons.mp hx with hx | hx
          · rw [hx]; exact hb
          · exact hhs x hx
    · refine Or.inr (Or.inr ⟨b :: pre, hs, post, ?_, hhs⟩)
      simp [hrest]

theorem readChunk_echo_source (conn : Connection) (chunk : List Nat)
    (he : conn.echo = false) (h : (readChunk conn chunk).1.echo = true) :
    doEchoIn chunk := by
  unfold readChunk at h
  rcases readBytes_echo_source chunk _ h with h1 | ⟨hm, _⟩ | h3
  · simp [he] at h1
  · simp at hm
  · exact h3

/-- Lines are only sent from a non-empty buffer. -/
theorem readByte_lines_nonempty (st : Loop) (b : Nat)
    (h : ∀ l ∈ lines st.sent, l ≠ []) : ∀ l ∈ lines (readByte st b).sent, l ≠ [] := by
  intro l hl
  unfold readByte at hl
  split_ifs at hl with h1 h2 h3 h4 h5 h6 h7 h8 h9
  all_goals
    try simp only [lines_append, lines, List.mem_append, List.mem_singleton, List.append_nil,
      List.not_mem_nil, or_false] at hl
  all_goals first
    | exact h l hl
    | (rcases hl with hl | hl
       · exact h l hl
       · rw [hl]; exact List.length_pos.mp (by assumption))

theorem readBytes_lines_nonempty (bs : List Nat) :
    ∀ st : Loop, (∀ l ∈ lines st.sent, l ≠ []) →
      ∀ l ∈ lines (readBytes st bs).sent, l ≠ [] := by
  induction bs with
  | nil => intro st h; exact h
  | cons b rest ih =>
    intro st h
    rw [readBytes_cons]
    exact ih _ (readByte_lines_nonempty st b h)

theorem readLines_lines_nonempty (chunks : List (List Nat)) :
    ∀ conn : Connection, ∀ l ∈ lines (readLines conn chunks).2, l ≠ [] := by
  induction chunks with
  | nil => intro conn l hl; simp [readLines, lines] at hl
  | cons c cs ih =>
    intro conn l hl
    simp only [readLines, lines_append, List.mem_append] at hl
    rcases hl with hl | hl
    · unfold readChunk at hl
      exact readBytes_lines_nonempty c _ (by intro l hl; simp [lines] at hl) l hl
    · exact ih _ l hl

/-- A byte with the high bit clear that is not printable does nothing on an
empty buffer outside option mode. -/
theorem readByte_empty_noop (st : Loop) (b : Nat) (hb : b &&& 0x80 = 0)
    (hn : ¬ printable b) (hm : st.telnet_option_mode = false)
    (hbuf : st.conn.buffer = []) : readByte st b = st := by
  unfold readByte
  rw [highBit_clear_of_and_eq b hb, IsPrint_false_of_not_printable b hb hn, hm]
  simp [hbuf]

/-- With echo on, `7F` outside option mode on a non-empty buffer drops the last
byte and sends the erase chunk `08 20 08`. -/
theorem readByte_backspace (st : Loop) (he : st.conn.echo = true)
    (hm : st.telnet_option_mode = false) (hbuf : st.conn.buffer ≠ []) :
    readByte st 0x7f =
      { st with
        conn := { st.conn with buffer := st.conn.buffer.dropLast },
        sent := st.sent ++ [Event.raw [0x08, 0x20, 0x08]] } := by
  have hlen : st.conn.buffer.length > 0 := List.length_pos.mpr hbuf
  have h7 : ((0x7f : Nat) &&& 0x80 != 0) = false := by decide
  unfold readByte
  rw [h7, hm, IsPrint_del]
  simp [he, hlen, List.dropLast_eq_take]

theorem highBit_set_of_ge (b : Nat) (h1 : 0x80 ≤ b) (h2 : b < 256) :
    (b &&& 0x80 != 0) = true := by
  have h0 : ¬ (b &&& 0x80 = 0) := fun h => by
    have := (and_0x80_eq_zero_iff_lt b h2).mp h
    omega
  simp [h0]

/-- The sends already made are carried along unchanged by a loop step. -/
theorem readByte_sent_append (c : Connection) (m : Bool) (s0 : List Event) (b : Nat) :
    readByte ⟨c, m, s0⟩ b =
      ⟨(readByte ⟨c, m, []⟩ b).conn, (readByte ⟨c, m, []⟩ b).telnet_option_mode,
        s0 ++ (readByte ⟨c, m, []⟩ b).sent⟩ := by
  unfold readByte
  split_ifs <;> simp

theorem readBytes_sent_append (bs : List Nat) :
    ∀ (c : Connection) (m : Bool) (s0 : List Event),
      readBytes ⟨c, m, s0⟩ bs =
        ⟨(readBytes ⟨c, m, []⟩ bs).conn, (readBytes ⟨c, m, []⟩ bs).telnet_option_mode,
          s0 ++ (readBytes ⟨c, m, []⟩ bs).sent⟩ := by
  induction bs with
  | nil => intro c m s0; simp [readBytes_nil]
  | cons b bs ih =>
    intro c m s0
    rw [readBytes_cons, readBytes_cons, readByte_sent_append c m s0 b, ih,
      ih _ _ (readByte ⟨c, m, []⟩ b).sent]
    simp [List.append_assoc]

theorem readLines_cons (conn : Connection) (c : List Nat) (cs : List (List Nat)) :
    readLines conn (c :: cs) =
      ((readLines (readChunk conn c).1 cs).1,
        (readChunk conn c).2 ++ (readLines (readChunk conn c).1 cs).2) := rfl

/-- When option mode is not armed where chunks meet, reading chunk by chunk is
reading the concatenated bytes as one chunk. -/
theorem readLines_eq_readChunk_flatten (chunks : List (List Nat)) :
    ∀ conn : Connection, boundariesUnarmed conn chunks = true →
      readLines conn chunks = readChunk conn chunks.flatten := by
  induction chunks with
  | nil => intro conn _; rfl
  | cons c cs ih =>
    intro conn hb
    cases cs with
    | nil => simp [readLines_single]
    | cons n rest =>
      simp only [boundariesUnarmed, Bool.and_eq_true, Bool.not_eq_true'] at hb
      obtain ⟨hm, hrest⟩ := hb
      have ih2 := ih (readChunk conn c).1 hrest
      have hfl : (c :: n :: rest).flatten = c ++ (n :: rest).flatten := by simp
      rw [readLines_cons, ih2, hfl]
      unfold readChunk
      simp only []
      rw [readBytes_append]
      rcases hst : readBytes ⟨conn, false, []⟩ c with ⟨c1, m1, s1⟩
      rw [hst] at hm
      simp only at hm
      subst hm
      rw [readBytes_sent_append _ c1 false s1]

theorem readByte_unarmed (st : Loop) (b : Nat) (hm : st.telnet_option_mode = false)
    (hb : b ≠ 0xfd) : (readByte st b).telnet_option_mode = false := by
  cases h : (readByte st b).telnet_option_mode with
  | false => rfl
  | true =>
    rcases readByte_armed st b h with h1 | ⟨h2, _⟩
    · exact absurd h1 hb
    · rw [hm] at h2; cases h2

theorem readBytes_unarmed (bs : List Nat) :
    ∀ st : Loop, st.telnet_option_mode = false → 0xfd ∉ bs →
      (readBytes st bs).telnet_option_mode = false := by
  induction bs with
  | nil => intro st hm _; exact hm
  | cons b bs ih =>
    intro st hm hfd
    rw [readBytes_cons]
    have hb : b ≠ 0xfd := fun h => hfd (by rw [h]; exact List.mem_cons_self _ _)
    exact ih _ (readByte_unarmed st b hm hb) (fun h => hfd (List.mem_cons_of_mem b h))

theorem boundariesUnarmed_of_no_fd (chunks : List (List Nat)) :
    ∀ conn : Connection, 0xfd ∉ chunks.flatten → boundariesUnarmed conn chunks = true := by
  induction chunks with
  | nil => intro conn _; rfl
  | cons c cs ih =>
    intro conn hfd
    cases cs with
    | nil => rfl
    | cons n rest =>
      have hc : 0xfd ∉ c := fun h => hfd (by simp [h])
      have hr : 0xfd ∉ (n :: rest).flatten := fun h => hfd (by
        rw [List.flatten_cons]; exact List.mem_append_right c h)
      simp only [boundariesUnarmed, Bool.and_eq_true, Bool.not_eq_true']
      exact ⟨readBytes_unarmed c _ rfl hc, ih _ hr⟩

/-- A byte that passes the high-bit test and `strconv.IsPrint` lies in
`0x20..0x7E`. -/
theorem printable_of_IsPrint (b : Nat) (hb : ¬ (b &&& 0x80 != 0) = true)
    (hp : IsPrint b = true) : printable b := by
  by_contra hn
  have h0 : b &&& 0x80 = 0 := by simpa using hb
  rw [IsPrint_false_of_not_printable b h0 hn] at hp
  cases hp

theorem readByte_allPrintable (st : Loop) (b : Nat) (h : allPrintable st) :
    allPrintable (readByte st b) := by
  obtain ⟨hbuf, hln⟩ := h
  unfold readByte
  split_ifs with h1 h2 h3 h4 h5 h6 h7 h8 h9
  all_goals refine ⟨?_, ?_⟩
  all_goals try exact hbuf
  all_goals try exact hln
  all_goals
    try simp only [lines_append, lines, List.mem_append, List.mem_singleton, List.append_nil,
      List.not_mem_nil, or_false, List.take_zero, false_imp_iff, implies_true]
  all_goals first
    | exact hln
    | (intro x hx
       rcases hx with hx | hx
       · exact hbuf x hx
       · rw [hx]; exact printable_of_IsPrint b (by assumption) (by assumption))
    | (intro x hx; exact hbuf x (List.mem_of_mem_take hx))
    | (intro l hl
       rcases hl with hl | hl
       · exact hln l hl
       · rw [hl]; exact hbuf)

theorem readBytes_allPrintable (bs : List Nat) :
    ∀ st : Loop, allPrintable st → allPrintable (readBytes st bs) := by
  induction bs with
  | nil => intro st h; exact h
  | cons b bs ih =>
    intro st h
    rw [readBytes_cons]
    exact ih _ (readByte_allPrintable st b h)

theorem readLines_allPrintable (chunks : List (List Nat)) :
    ∀ conn : Connection, (∀ b ∈ conn.buffer, printable b) →
      (∀ b ∈ (readLines conn chunks).1.buffer, printable b) ∧
      ∀ l ∈ lines (readLines conn chunks).2, ∀ b ∈ l, printable b := by
  induction chunks with
  | nil =>
    intro conn h
    exact ⟨h, by intro l hl; simp [readLines, lines] at hl⟩
  | cons c cs ih =>
    intro conn h
    have h1 : allPrintable (readBytes ⟨conn, false, []⟩ c) :=
      readBytes_allPrintable c _ ⟨h, by intro l hl; simp [lines] at hl⟩
    have h2 := ih (readChunk conn c).1 h1.1
    refine ⟨h2.1, ?_⟩
    intro l hl
    simp only [readLines, lines_append, List.mem_append] at hl
    rcases hl with hl | hl
    · exact h1.2 l hl
    · exact h2.2 l hl

/-- The byte `FD` arms option mode and changes nothing else. -/
theorem readByte_do (st : Loop) :
    readByte st 0xfd = { st with telnet_option_mode := true } := by
  unfold readByte
  simp

/-- The byte `01` met outside option mode follows the ordinary rules: it
completes the pending line when the buffer is non-empty and does nothing
otherwise. -/
theorem readByte_one_unarmed (c : Connection) (s0 : List Event) :
    readByte ⟨c, false, s0⟩ 0x01 =
      (if c.buffer.length > 0 then
        ⟨⟨[], c.echo⟩, false,
          s0 ++ [Event.line c.buffer] ++ (if c.echo then [Event.raw Newline] else [])⟩
      else ⟨c, false, s0⟩) := by
  have h1 : ((0x01 : Nat) &&& 0x80 != 0) = false := by decide
  have h2 : IsPrint 0x01 = false := by decide
  unfold readByte
  rw [h1, h2]
  by_cases hlen : c.buffer.length > 0
  · cases he : c.echo <;> simp [hlen, he]
  · simp [hlen]

/-! ## Claims -/

/-- C1. Echo disabled, line delivery: a non-empty run `s` of printable bytes
followed by one terminator byte (high bit clear, not printable), read as one
chunk from an empty buffer with echo off, sends nothing on the raw sink,
delivers exactly the one line `s`, and leaves the buffer empty. -/
theorem readLines_echo_off_delivers_line (s : List Nat) (t : Nat)
    (hs : s ≠ []) (hp : ∀ b ∈ s, printable b)
    (ht : t &&& 0x80 = 0) (hn : ¬ printable t) :
    rawChunks (readLines ⟨[], false⟩ [s ++ [t]]).2 = [] ∧
    lines (readLines ⟨[], false⟩ [s ++ [t]]).2 = [s] ∧
    (readLines ⟨[], false⟩ [s ++ [t]]).1.buffer = [] := by
  have hrun : readLines ⟨[], false⟩ [s ++ [t]] = (⟨[], false⟩, [Event.line s]) := by
    rw [readLines_single]
    unfold readChunk
    rw [readBytes_append, readBytes_printable s _ hp rfl, readBytes_cons, readBytes_nil,
      readByte_terminator _ t ht hn (by simp) rfl (by simpa using hs)]
    simp
  rw [hrun]
  simp [rawChunks, lines]

theorem readLines_echo_off_delivers_line_witness :
    rawChunks (readLines ⟨[], false⟩ [[0x68, 0x69] ++ [0x0d]]).2 = [] ∧
    lines (readLines ⟨[], false⟩ [[0x68, 0x69] ++ [0x0d]]).2 = [[0x68, 0x69]] ∧
    (readLines ⟨[], false⟩ [[0x68, 0x69] ++ [0x0d]]).1.buffer = [] :=
  readLines_echo_off_delivers_line [0x68, 0x69] 0x0d (by decide) (by decide) (by decide)
    (by decide)

/-- C2. Echo enabled, echo stream and line: a non-empty run `s` of printable
bytes followed by one terminator byte below `0x20`, read as one chunk from an
empty buffer with echo on, sends on the raw sink exactly `len(s)+1` chunks, one
single-byte chunk per byte of `s` in input order and then `0D 0A`, and delivers
exactly the one line `s`. -/
theorem readLines_echo_on_stream_and_line (s : List Nat) (t : Nat)
    (hs : s ≠ []) (hp : ∀ b ∈ s, printable b) (ht : t < 0x20) :
    rawChunks (readLines ⟨[], true⟩ [s ++ [t]]).2 = s.map (fun b => [b]) ++ [[0x0d, 0x0a]] ∧
    (rawChunks (readLines ⟨[], true⟩ [s ++ [t]]).2).length = s.length + 1 ∧
    lines (readLines ⟨[], true⟩ [s ++ [t]]).2 = [s] := by
  have h0 : t &&& 0x80 = 0 := (and_0x80_eq_zero_iff_lt t (by omega)).mpr (by omega)
  have hn : ¬ printable t := by unfold printable; omega
  have hd : (t == 0x7f && true) = false := by
    have : t ≠ 0x7f := by omega
    simp [this]
  have hrun : readLines ⟨[], true⟩ [s ++ [t]] =
      (⟨[], true⟩, s.map (fun b => Event.raw [b]) ++ [Event.line s] ++ [Event.raw Newline]) := by
    rw [readLines_single]
    unfold readChunk
    rw [readBytes_append, readBytes_printable s _ hp rfl, readBytes_cons, readBytes_nil,
      readByte_terminator _ t h0 hn hd rfl (by simpa using hs)]
    simp
  rw [hrun]
  simp [rawChunks_append, lines_append, rawChunks_map_raw, lines_map_raw, rawChunks, lines,
    Newline]

theorem readLines_echo_on_stream_and_line_witness :
    rawChunks (readLines ⟨[], true⟩ [[0x68, 0x69] ++ [0x0d]]).2 =
        [0x68, 0x69].map (fun b => [b]) ++ [[0x0d, 0x0a]] ∧
    (rawChunks (readLines ⟨[], true⟩ [[0x68, 0x69] ++ [0x0d]]).2).length =
        [0x68, 0x69].length + 1 ∧
    lines (readLines ⟨[], true⟩ [[0x68, 0x69] ++ [0x0d]]).2 = [[0x68, 0x69]] :=
  readLines_echo_on_stream_and_line [0x68, 0x69] 0x0d (by decide) (by decide) (by decide)

/-- C3. Prompt-writer output: for a non-empty message `m`, any buffer snapshot
and either echo value, `writeAndPrompt` sends exactly two chunks, the redraw
lead (`0D 00` with echo on, `0D 0A` with echo off) followed by `m` and `0D 0A`,
then the marker `0D 00 3E 20` followed by the buffer, and leaves buffer and echo
as they were. With echo on, buffer "foo" and message "hello" the bytes sent are
`\r\0hello\r\n\r\0> foo`. -/
theorem writeAndPrompt_message (m buf : List Nat) (echo : Bool) (hm : m ≠ []) :
    (writeAndPrompt ⟨buf, echo⟩ m).2 =
        [(if echo then [0x0d, 0x00] else [0x0d, 0x0a]) ++ m ++ [0x0d, 0x0a],
         [0x0d, 0x00, 0x3e, 0x20] ++ buf] ∧
    (writeAndPrompt ⟨buf, echo⟩ m).1 = ⟨buf, echo⟩ ∧
    (writeAndPrompt ⟨[0x66, 0x6f, 0x6f], true⟩ [0x68, 0x65, 0x6c, 0x6c, 0x6f]).2.flatten =
        [0x0d, 0x00, 0x68, 0x65, 0x6c, 0x6c, 0x6f, 0x0d, 0x0a,
         0x0d, 0x00, 0x3e, 0x20, 0x66, 0x6f, 0x6f] := by
  refine ⟨?_, rfl, by decide⟩
  unfold writeAndPrompt
  cases echo <;> simp [hm, Newline]

theorem writeAndPrompt_message_witness :
    (writeAndPrompt ⟨[0x66, 0x6f, 0x6f], false⟩ [0x68, 0x69]).2 =
        [(if false then [0x0d, 0x00] else [0x0d, 0x0a]) ++ [0x68, 0x69] ++ [0x0d, 0x0a],
         [0x0d, 0x00, 0x3e, 0x20] ++ [0x66, 0x6f, 0x6f]] ∧
    (writeAndPrompt ⟨[0x66, 0x6f, 0x6f], false⟩ [0x68, 0x69]).1 = ⟨[0x66, 0x6f, 0x6f], false⟩ ∧
    (writeAndPrompt ⟨[0x66, 0x6f, 0x6f], true⟩ [0x68, 0x65, 0x6c, 0x6c, 0x6f]).2.flatten =
        [0x0d, 0x00, 0x68, 0x65, 0x6c, 0x6c, 0x6f, 0x0d, 0x0a,
         0x0d, 0x00, 0x3e, 0x20, 0x66, 0x6f, 0x6f] :=
  writeAndPrompt_message [0x68, 0x69] [0x66, 0x6f, 0x6f] false (by decide)

/-- C4. Echo negotiation: from any state with echo off, the bytes `FF FD 01`
met consecutively in one chunk outside option mode leave echo on, the buffer
unchanged, and send nothing (no raw chunk, no line). Every byte after the `01`
is processed with echo on: the state reached after any further bytes `rest` of
the same chunk, and the state reached inside any later chunk after any bytes
`seen` of it, has echo on. -/
theorem readBytes_echo_negotiation (conn : Connection) (sent : List Event)
    (_he : conn.echo = false) :
    readBytes ⟨conn, false, sent⟩ [0xff, 0xfd, 0x01] = ⟨⟨conn.buffer, true⟩, false, sent⟩ ∧
    (∀ rest : List Nat,
      (readBytes ⟨conn, false, sent⟩ ([0xff, 0xfd, 0x01] ++ rest)).conn.echo = true) ∧
    (∀ (rest : List Nat) (later : List (List Nat)) (seen : List Nat),
      (readBytes
        ⟨(readLines (readBytes ⟨conn, false, sent⟩ ([0xff, 0xfd, 0x01] ++ rest)).conn later).1,
          false, []⟩ seen).conn.echo = true) := by
  have h3 : readBytes ⟨conn, false, sent⟩ [0xff, 0xfd, 0x01] =
      ⟨⟨conn.buffer, true⟩, false, sent⟩ := by
    rw [readBytes_do_echo _ rfl]
  have hrest : ∀ rest : List Nat,
      (readBytes ⟨conn, false, sent⟩ ([0xff, 0xfd, 0x01] ++ rest)).conn.echo = true := by
    intro rest
    rw [readBytes_append, h3]
    exact readBytes_echo_mono rest _ rfl
  refine ⟨h3, hrest, ?_⟩
  intro rest later seen
  exact readBytes_echo_mono seen _ (readLines_echo_mono later _ (hrest rest))

theorem readBytes_echo_negotiation_witness :
    readBytes ⟨⟨[0x68], false⟩, false, []⟩ [0xff, 0xfd, 0x01] =
      ⟨⟨(⟨[0x68], false⟩ : Connection).buffer, true⟩, false, []⟩ ∧
    (∀ rest : List Nat,
      (readBytes ⟨⟨[0x68], false⟩, false, []⟩ ([0xff, 0xfd, 0x01] ++ rest)).conn.echo = true) ∧
    (∀ (rest : List Nat) (later : List (List Nat)) (seen : List Nat),
      (readBytes
        ⟨(readLines (readBytes ⟨⟨[0x68], false⟩, false, []⟩
            ([0xff, 0xfd, 0x01] ++ rest)).conn later).1,
          false, []⟩ seen).conn.echo = true) :=
  readBytes_echo_negotiation ⟨[0x68], false⟩ [] rfl

set_option maxRecDepth 100000 in
/-- C5. End-to-end session on the connection exactly as `detachConnection`
constructs it: after `FF FD 01` and then `h`, `i`, `7F`, `i`, `0D`, `0A` the raw
sink has received `h`, `i`, `08 20 08`, `i`, `0D 0A` and exactly one line has
been delivered, but that line is 256 zero bytes followed by "hi", not "hi".
Shown with the typed bytes in one chunk and with one chunk per typed byte. -/
theorem session_on_fresh_connection :
    rawChunks (readLines detachConnection.1
        [[0xff, 0xfd, 0x01], [0x68, 0x69, 0x7f, 0x69, 0x0d, 0x0a]]).2 =
      [[0x68], [0x69], [0x08, 0x20, 0x08], [0x69], [0x0d, 0x0a]] ∧
    lines (readLines detachConnection.1
        [[0xff, 0xfd, 0x01], [0x68, 0x69, 0x7f, 0x69, 0x0d, 0x0a]]).2 =
      [List.replicate 256 0 ++ [0x68, 0x69]] ∧
    lines (readLines detachConnection.1
        [[0xff, 0xfd, 0x01], [0x68], [0x69], [0x7f], [0x69], [0x0d], [0x0a]]).2 =
      [List.replicate 256 0 ++ [0x68, 0x69]] ∧
    lines (readLines detachConnection.1
        [[0xff, 0xfd, 0x01], [0x68, 0x69, 0x7f, 0x69, 0x0d, 0x0a]]).2 ≠ [[0x68, 0x69]] := by
  refine ⟨by decide, by decide, by decide, by decide⟩

set_option maxRecDepth 100000 in
/-- C6. Initial connection state: the buffer `detachConnection` constructs is
`make([]byte, 256)`, a slice of length 256 holding zero bytes, so it is not
empty; echo is off. The first line delivered after `a`, `0D` therefore starts
with 256 zero bytes. -/
theorem detachConnection_initial_state :
    detachConnection.1.buffer = List.replicate 256 0 ∧
    detachConnection.1.buffer.length = 256 ∧
    detachConnection.1.buffer ≠ [] ∧
    detachConnection.1.echo = false ∧
    lines (readLines detachConnection.1 [[0x61, 0x0d]]).2 =
      [List.replicate 256 0 ++ [0x61]] := by
  refine ⟨rfl, by decide, by decide, rfl, by decide⟩

/-- C7, as stated, fails: the chunk `FD 01` switches echo on although the input
does not contain the three consecutive bytes `FF FD 01`. -/
theorem echo_on_without_iac :
    (readLines ⟨[], false⟩ [[0xfd, 0x01]]).1.echo = true ∧
    ¬ ([0xff, 0xfd, 0x01] <:+: ([[0xfd, 0x01]] : List (List Nat)).flatten) := by
  refine ⟨by decide, ?_⟩
  intro h
  have := h.length_le
  simp at this

/-- C7, amended. Echo activates only on DO ECHO: for every sequence of input
chunks processed by `readLines` from a state with echo off, if echo is on
afterwards then some single chunk holds the byte `FD`, then zero or more bytes
with the high bit set, then the byte `01`. -/
theorem readLines_echo_only_on_do_echo (chunks : List (List Nat)) :
    ∀ conn : Connection, conn.echo = false → (readLines conn chunks).1.echo = true →
      ∃ chunk ∈ chunks, ∃ pre hs post : List Nat,
        chunk = pre ++ [0xfd] ++ hs ++ [0x01] ++ post ∧ ∀ h ∈ hs, h &&& 0x80 ≠ 0 := by
  induction chunks with
  | nil =>
    intro conn he h
    simp [readLines, he] at h
  | cons c cs ih =>
    intro conn he h
    simp only [readLines] at h
    cases h1 : (readChunk conn c).1.echo with
    | true => exact ⟨c, List.mem_cons_self c cs, readChunk_echo_source conn c he h1⟩
    | false =>
      obtain ⟨chunk, hmem, hpat⟩ := ih _ h1 h
      exact ⟨chunk, List.mem_cons_of_mem c hmem, hpat⟩

theorem readLines_echo_only_on_do_echo_witness :
    ∃ chunk ∈ [[0x68], [0xfd, 0xff, 0x01, 0x69]], ∃ pre hs post : List Nat,
      chunk = pre ++ [0xfd] ++ hs ++ [0x01] ++ post ∧ ∀ h ∈ hs, h &&& 0x80 ≠ 0 :=
  readLines_echo_only_on_do_echo [[0x68], [0xfd, 0xff, 0x01, 0x69]] ⟨[], false⟩ rfl
    (by decide)

/-- C8. Backspace on an empty buffer is a no-op: with echo on, an empty buffer
and option mode not armed, the byte `7F` sends nothing, delivers no line and
leaves buffer, echo and the option flag unchanged. -/
theorem readByte_backspace_empty (st : Loop) (he : st.conn.echo = true)
    (hbuf : st.conn.buffer = []) (hm : st.telnet_option_mode = false) :
    readByte st 0x7f = st ∧
    rawChunks (readByte st 0x7f).sent = rawChunks st.sent ∧
    lines (readByte st 0x7f).sent = lines st.sent ∧
    (readByte st 0x7f).conn.buffer = [] ∧
    (readByte st 0x7f).conn.echo = true := by
  have h : readByte st 0x7f = st := by
    unfold readByte
    rw [hm, IsPrint_del]
    simp [he, hbuf]
  rw [h]
  exact ⟨rfl, rfl, rfl, hbuf, he⟩

theorem readByte_backspace_empty_witness :
    readByte ⟨⟨[], true⟩, false, []⟩ 0x7f = ⟨⟨[], true⟩, false, []⟩ ∧
    rawChunks (readByte ⟨⟨[], true⟩, false, []⟩ 0x7f).sent = rawChunks [] ∧
    lines (readByte ⟨⟨[], true⟩, false, []⟩ 0x7f).sent = lines [] ∧
    (readByte ⟨⟨[], true⟩, false, []⟩ 0x7f).conn.buffer = [] ∧
    (readByte ⟨⟨[], true⟩, false, []⟩ 0x7f).conn.echo = true :=
  readByte_backspace_empty ⟨⟨[], true⟩, false, []⟩ rfl rfl rfl

/-- C9. Backspace undoes a typed character: with echo on and option mode not
armed, a printable byte `b` followed by `7F` leaves the buffer as it was, sends
exactly the chunk `[b]` and then the erase chunk `08 20 08`, and delivers no
line. Hence a chunk made of a printable run `s`, then `b`, `7F` and a
terminator below `0x20`, read from an empty buffer, delivers the line `s`. -/
theorem readBytes_backspace_undoes (st : Loop) (b : Nat) (he : st.conn.echo = true)
    (hm : st.telnet_option_mode = false) (hb : printable b) :
    (readBytes st [b, 0x7f]).conn.buffer = st.conn.buffer ∧
    (readBytes st [b, 0x7f]).sent =
      st.sent ++ [Event.raw [b], Event.raw [0x08, 0x20, 0x08]] ∧
    lines (readBytes st [b, 0x7f]).sent = lines st.sent ∧
    (readBytes st [b, 0x7f]).conn.echo = true ∧
    (∀ (s : List Nat) (t : Nat), s ≠ [] → (∀ c ∈ s, printable c) → t < 0x20 →
      lines (readChunk ⟨[], true⟩ (s ++ [b, 0x7f] ++ [t])).2 = [s]) := by
  have hrun : ∀ st : Loop, st.conn.echo = true → st.telnet_option_mode = false →
      readBytes st [b, 0x7f] =
        { st with sent := st.sent ++ [Event.raw [b], Event.raw [0x08, 0x20, 0x08]] } := by
    intro st he hm
    obtain ⟨⟨buf, e⟩, m, sent⟩ := st
    simp only at he hm
    subst he hm
    have h1 := readByte_printable ⟨⟨buf, true⟩, false, sent⟩ b hb rfl
    have he1 : (readByte ⟨⟨buf, true⟩, false, sent⟩ b).conn.echo = true := by rw [h1]
    have hm1 : (readByte ⟨⟨buf, true⟩, false, sent⟩ b).telnet_option_mode = false := by
      rw [h1]
    have hb1 : (readByte ⟨⟨buf, true⟩, false, sent⟩ b).conn.buffer ≠ [] := by
      rw [h1]; simp
    rw [readBytes_cons, readBytes_cons, readBytes_nil, readByte_backspace _ he1 hm1 hb1, h1]
    simp
  refine ⟨by rw [hrun st he hm], by rw [hrun st he hm], ?_, by rw [hrun st he hm]; exact he, ?_⟩
  · rw [hrun st he hm]
    simp [lines_append, lines]
  · intro s t hs hp ht
    have h0 : t &&& 0x80 = 0 := (and_0x80_eq_zero_iff_lt t (by omega)).mpr (by omega)
    have hn : ¬ printable t := by unfold printable; omega
    have hd : (t == 0x7f && true) = false := by
      have : t ≠ 0x7f := by omega
      simp [this]
    unfold readChunk
    rw [readBytes_append, readBytes_append, readBytes_printable s _ hp rfl, hrun _ rfl rfl,
      readBytes_cons, readBytes_nil, readByte_terminator _ t h0 hn hd rfl (by simpa using hs)]
    simp [lines_append, lines_map_raw, lines]

theorem readBytes_backspace_undoes_witness :
    (readBytes ⟨⟨[0x68], true⟩, false, []⟩ [0x69, 0x7f]).conn.buffer = [0x68] ∧
    (readBytes ⟨⟨[0x68], true⟩, false, []⟩ [0x69, 0x7f]).sent =
      [] ++ [Event.raw [0x69], Event.raw [0x08, 0x20, 0x08]] ∧
    lines (readBytes ⟨⟨[0x68], true⟩, false, []⟩ [0x69, 0x7f]).sent = lines [] ∧
    (readBytes ⟨⟨[0x68], true⟩, false, []⟩ [0x69, 0x7f]).conn.echo = true ∧
    (∀ (s : List Nat) (t : Nat), s ≠ [] → (∀ c ∈ s, printable c) → t < 0x20 →
      lines (readChunk ⟨[], true⟩ (s ++ [0x69, 0x7f] ++ [t])).2 = [s]) :=
  readBytes_backspace_undoes ⟨⟨[0x68], true⟩, false, []⟩ 0x69 rfl rfl (by decide)

/-- C10. No empty line is ever delivered: for every starting state and every
sequence of chunks each delivered line has length at least 1. A non-printable
byte with the high bit clear met on an empty buffer outside option mode sends
nothing, delivers nothing and changes no state; so `0D 0A` after text (a
non-empty buffer) delivers exactly one line, the buffer. -/
theorem readLines_no_empty_line (conn : Connection) (chunks : List (List Nat))
    (st : Loop) (b : Nat) (st2 : Loop)
    (hb : b &&& 0x80 = 0) (hn : ¬ printable b)
    (hm : st.telnet_option_mode = false) (hbuf : st.conn.buffer = [])
    (hm2 : st2.telnet_option_mode = false) (hbuf2 : st2.conn.buffer ≠ []) :
    (∀ l ∈ lines (readLines conn chunks).2, 1 ≤ l.length) ∧
    readByte st b = st ∧
    lines (readBytes st2 [0x0d, 0x0a]).sent = lines st2.sent ++ [st2.conn.buffer] ∧
    (readBytes st2 [0x0d, 0x0a]).conn.buffer = [] := by
  refine ⟨?_, readByte_empty_noop st b hb hn hm hbuf, ?_⟩
  · intro l hl
    exact List.length_pos.mpr (readLines_lines_nonempty chunks conn l hl)
  · have hcr : readByte st2 0x0d =
        { st2 with
          conn := { st2.conn with buffer := [] },
          sent := st2.sent ++ [Event.line st2.conn.buffer] ++
            (if st2.conn.echo then [Event.raw Newline] else []) } :=
      readByte_terminator st2 0x0d (by decide) (by decide) (by simp) hm2 hbuf2
    have hlf : readByte (readByte st2 0x0d) 0x0a = readByte st2 0x0d :=
      readByte_empty_noop (readByte st2 0x0d) 0x0a (by decide) (by decide)
        (by rw [hcr]; exact hm2) (by rw [hcr])
    rw [readBytes_cons, readBytes_cons, readBytes_nil, hlf, hcr]
    cases he : st2.conn.echo <;> simp [lines_append, lines]

theorem readLines_no_empty_line_witness :
    (∀ l ∈ lines (readLines ⟨[], true⟩ [[0x0d, 0x68], [0x0d, 0x0a, 0x0a]]).2, 1 ≤ l.length) ∧
    readByte ⟨⟨[], false⟩, false, []⟩ 0x0a = ⟨⟨[], false⟩, false, []⟩ ∧
    lines (readBytes ⟨⟨[0x68, 0x69], true⟩, false, []⟩ [0x0d, 0x0a]).sent =
      lines [] ++ [[0x68, 0x69]] ∧
    (readBytes ⟨⟨[0x68, 0x69], true⟩, false, []⟩ [0x0d, 0x0a]).conn.buffer = [] :=
  readLines_no_empty_line ⟨[], true⟩ [[0x0d, 0x68], [0x0d, 0x0a, 0x0a]]
    ⟨⟨[], false⟩, false, []⟩ 0x0a ⟨⟨[0x68, 0x69], true⟩, false, []⟩
    (by decide) (by decide) rfl rfl rfl (by decide)

/-- C11. The connection lock and blocking sends, evaluated on the code: reading
the one chunk `a 0D b 0D c 0D` with echo off, `readLines` sends the three lines
on the completed-line queue between `Lock()` and `Unlock()`, and with echo on
the chunk `h` is echoed on the raw-byte queue between them; so the lock is held
across blocking sends. The prompt writer, which shares the lock, unlocks before
it sends. -/
theorem readLines_sends_while_locked :
    readLinesActs ⟨[], false⟩ [[0x61, 0x0d, 0x62, 0x0d, 0x63, 0x0d]] =
      [Act.lock, Act.send (Event.line [0x61]), Act.send (Event.line [0x62]),
       Act.send (Event.line [0x63]), Act.unlock] ∧
    noSendWhileLocked false
      (readLinesActs ⟨[], false⟩ [[0x61, 0x0d, 0x62, 0x0d, 0x63, 0x0d]]) = false ∧
    readLinesActs ⟨[], true⟩ [[0x68]] =
      [Act.lock, Act.send (Event.raw [0x68]), Act.unlock] ∧
    noSendWhileLocked false (readLinesActs ⟨[], true⟩ [[0x68]]) = false ∧
    writeAndPromptActs ⟨[0x61], false⟩ [0x68, 0x69] =
      [Act.lock, Act.unlock,
       Act.send (Event.raw [0x0d, 0x0a, 0x68, 0x69, 0x0d, 0x0a]),
       Act.send (Event.raw [0x0d, 0x00, 0x3e, 0x20, 0x61])] ∧
    noSendWhileLocked false (writeAndPromptActs ⟨[0x61], false⟩ [0x68, 0x69]) = true := by
  decide

/-- C12. Command bytes are absorbed: a byte with the high bit set (`0x80..0xFF`)
leaves buffer and echo unchanged, sends nothing on the raw sink and delivers no
line; `FD` arms option mode and every other such byte leaves the flag as it
was. -/
theorem readByte_command_byte (st : Loop) (b : Nat) (h1 : 0x80 ≤ b) (h2 : b < 256) :
    (readByte st b).conn.buffer = st.conn.buffer ∧
    (readByte st b).conn.echo = st.conn.echo ∧
    (readByte st b).sent = st.sent ∧
    rawChunks (readByte st b).sent = rawChunks st.sent ∧
    lines (readByte st b).sent = lines st.sent ∧
    (readByte st b).telnet_option_mode =
      (if b = 0xfd then true else st.telnet_option_mode) := by
  have h : readByte st b =
      (if b = 0xfd then { st with telnet_option_mode := true } else st) := by
    unfold readByte
    rw [highBit_set_of_ge b h1 h2]
    simp
  rw [h]
  by_cases hb : b = 0xfd <;> simp [hb]

theorem readByte_command_byte_witness :
    (readByte ⟨⟨[0x68], false⟩, false, []⟩ 0xfd).conn.buffer = [0x68] ∧
    (readByte ⟨⟨[0x68], false⟩, false, []⟩ 0xfd).conn.echo = false ∧
    (readByte ⟨⟨[0x68], false⟩, false, []⟩ 0xfd).sent = [] ∧
    rawChunks (readByte ⟨⟨[0x68], false⟩, false, []⟩ 0xfd).sent = rawChunks [] ∧
    lines (readByte ⟨⟨[0x68], false⟩, false, []⟩ 0xfd).sent = lines [] ∧
    (readByte ⟨⟨[0x68], false⟩, false, []⟩ 0xfd).telnet_option_mode =
      (if 0xfd = 0xfd then true else false) :=
  readByte_command_byte ⟨⟨[0x68], false⟩, false, []⟩ 0xfd (by decide) (by decide)

/-- C13. Bare redraw: an empty-message request makes `writeAndPrompt` send
exactly one chunk, the marker `0D 00 3E 20` followed by the buffer snapshot,
whatever echo is; `triggerPrompts` forwards each trigger as one empty request,
so `n` triggers produce exactly `n` redraw chunks, one per snapshot. -/
theorem bare_redraw (buf : List Nat) (echo : Bool) (conns : List Connection) :
    ∀ p : List Bool, conns.length = p.length →
      (writeAndPrompt ⟨buf, echo⟩ []).2 = [[0x0d, 0x00, 0x3e, 0x20] ++ buf] ∧
      triggerPrompts p = List.replicate p.length [] ∧
      writeAndPromptLoop (conns.zip (triggerPrompts p)) =
        conns.map (fun c => [0x0d, 0x00, 0x3e, 0x20] ++ c.buffer) ∧
      (writeAndPromptLoop (conns.zip (triggerPrompts p))).length = p.length := by
  have h1 : ∀ c : Connection, (writeAndPrompt c []).2 = [[0x0d, 0x00, 0x3e, 0x20] ++ c.buffer] := by
    intro c; simp [writeAndPrompt]
  have h2 : ∀ p : List Bool, triggerPrompts p = List.replicate p.length [] := by
    intro p
    induction p with
    | nil => rfl
    | cons t ts ih =>
      have ih2 : List.map (fun _ => ([] : List Byte)) ts = List.replicate ts.length [] := ih
      simp [triggerPrompts, List.replicate_succ, ih2]
  have h3 : ∀ (cs : List Connection) (p : List Bool), cs.length = p.length →
      writeAndPromptLoop (cs.zip (triggerPrompts p)) =
        cs.map (fun c => [0x0d, 0x00, 0x3e, 0x20] ++ c.buffer) := by
    intro cs
    induction cs with
    | nil => intro p _; rfl
    | cons c cs ih =>
      intro p hp
      cases p with
      | nil => simp at hp
      | cons t ts =>
        have hts : cs.length = ts.length := by simpa using hp
        show (writeAndPrompt c []).2 ++ writeAndPromptLoop (cs.zip (triggerPrompts ts)) = _
        rw [h1, ih ts hts]
        rfl
  intro p hp
  refine ⟨h1 ⟨buf, echo⟩, h2 p, h3 conns p hp, ?_⟩
  rw [h3 conns p hp, List.length_map, hp]

theorem bare_redraw_witness :
    (writeAndPrompt ⟨[0x68], true⟩ []).2 = [[0x0d, 0x00, 0x3e, 0x20] ++ [0x68]] ∧
    triggerPrompts [true, true] = List.replicate [true, true].length [] ∧
    writeAndPromptLoop
        (([⟨[0x68], true⟩, ⟨[], false⟩] : List Connection).zip (triggerPrompts [true, true])) =
      ([⟨[0x68], true⟩, ⟨[], false⟩] : List Connection).map
        (fun c => [0x0d, 0x00, 0x3e, 0x20] ++ c.buffer) ∧
    (writeAndPromptLoop
      (([⟨[0x68], true⟩, ⟨[], false⟩] : List Connection).zip
        (triggerPrompts [true, true]))).length =
      [true, true].length :=
  bare_redraw [0x68] true [⟨[0x68], true⟩, ⟨[], false⟩] [true, true] rfl

/-- C14. Only negotiation mutates echo, and only upwards: a loop step changes
echo only when the byte is `01` met in option mode, and then echo becomes true;
hence from echo on, echo is still on after any sequence of chunks. -/
theorem echo_changed_only_by_option_byte (st : Loop) (b : Nat) (conn : Connection)
    (chunks : List (List Nat)) (he : conn.echo = true) :
    ((readByte st b).conn.echo ≠ st.conn.echo →
      b = 0x01 ∧ st.telnet_option_mode = true ∧ (readByte st b).conn.echo = true) ∧
    (readLines conn chunks).1.echo = true := by
  refine ⟨?_, readLines_echo_mono chunks conn he⟩
  intro hne
  cases h0 : st.conn.echo with
  | true =>
    exact absurd (by rw [readByte_echo_mono st b h0, h0]) hne
  | false =>
    have h1 : (readByte st b).conn.echo = true := by
      cases h2 : (readByte st b).conn.echo with
      | true => rfl
      | false => exact absurd (by rw [h2, h0]) hne
    rcases readByte_echo_on st b h1 with h3 | ⟨hm, hb⟩
    · rw [h0] at h3; cases h3
    · exact ⟨hb, hm, h1⟩

theorem echo_changed_only_by_option_byte_witness :
    ((readByte ⟨⟨[], false⟩, true, []⟩ 0x01).conn.echo ≠
        (⟨⟨[], false⟩, true, []⟩ : Loop).conn.echo →
      0x01 = 0x01 ∧ (⟨⟨[], false⟩, true, []⟩ : Loop).telnet_option_mode = true ∧
        (readByte ⟨⟨[], false⟩, true, []⟩ 0x01).conn.echo = true) ∧
    (readLines ⟨[0x68], true⟩ [[0x0d], [0xff, 0xfe, 0x01]]).1.echo = true :=
  echo_changed_only_by_option_byte ⟨⟨[], false⟩, true, []⟩ 0x01 ⟨[0x68], true⟩
    [[0x0d], [0xff, 0xfe, 0x01]] rfl

/-- C15. Initial negotiation request: the only chunk `detachConnection` sends
on the raw sink is the 6 bytes `FF FB 03 FF FB 01`, and in its program order
the send follows the four `go` statements and precedes the return of the
connection. -/
theorem detachConnection_negotiation_request :
    detachConnection.2 = [[0xff, 0xfb, 0x03, 0xff, 0xfb, 0x01]] ∧
    (∀ c ∈ detachConnection.2, c.length = 6) ∧
    (∃ before : List DetachStep, (∀ x ∈ before, ∃ p, x = DetachStep.go p) ∧
      detachConnectionSteps =
        before ++ [DetachStep.sendRaw [0xff, 0xfb, 0x03, 0xff, 0xfb, 0x01],
                   DetachStep.ret detachConnection.1]) := by
  refine ⟨rfl, ?_, ?_⟩
  · intro c hc
    have h2 : detachConnection.2 = [[0xff, 0xfb, 0x03, 0xff, 0xfb, 0x01]] := rfl
    rw [h2, List.mem_singleton] at hc
    rw [hc]
    rfl
  refine ⟨[DetachStep.go Pump.readLines, DetachStep.go Pump.writeRaw,
    DetachStep.go Pump.writeAndPrompt, DetachStep.go Pump.triggerPrompts], ?_, rfl⟩
  intro x hx
  simp only [List.mem_cons, List.mem_singleton, List.not_mem_nil, or_false] at hx
  rcases hx with hx | hx | hx | hx <;> exact ⟨_, hx⟩

/-- C16. The negotiation micro-state does not survive a chunk boundary: a chunk
ending in `FD` ends with option mode armed, yet a following chunk `01` starts
unarmed, so the `01` does not set echo and follows the ordinary rules: it
completes the pending line when the buffer is non-empty and does nothing when
it is empty. The same two bytes inside one chunk do set echo. -/
theorem option_mode_dropped_at_chunk_boundary (conn c1 : Connection) (pre : List Nat)
    (s1 : List Event) (h : readChunk conn (pre ++ [0xfd]) = (c1, s1)) :
    (readBytes ⟨conn, false, []⟩ (pre ++ [0xfd])).telnet_option_mode = true ∧
    readLines conn [pre ++ [0xfd], [0x01]] =
      (if c1.buffer.length > 0 then
        (⟨[], c1.echo⟩,
          s1 ++ ([Event.line c1.buffer] ++ (if c1.echo then [Event.raw Newline] else [])))
      else (c1, s1)) ∧
    (readLines conn [pre ++ [0xfd], [0x01]]).1.echo = c1.echo ∧
    (readChunk conn (pre ++ [0xfd, 0x01])).1.echo = true := by
  have hone : readChunk c1 [0x01] =
      (if c1.buffer.length > 0 then
        (⟨[], c1.echo⟩, [Event.line c1.buffer] ++ (if c1.echo then [Event.raw Newline] else []))
      else (c1, [])) := by
    unfold readChunk
    simp only []
    rw [readBytes_cons, readBytes_nil, readByte_one_unarmed]
    by_cases hlen : c1.buffer.length > 0 <;> simp [hlen]
  have hrun : readLines conn [pre ++ [0xfd], [0x01]] =
      (if c1.buffer.length > 0 then
        (⟨[], c1.echo⟩,
          s1 ++ ([Event.line c1.buffer] ++ (if c1.echo then [Event.raw Newline] else [])))
      else (c1, s1)) := by
    rw [readLines_cons, readLines_single, h]
    simp only []
    rw [hone]
    by_cases hlen : c1.buffer.length > 0 <;> simp [hlen]
  refine ⟨?_, hrun, ?_, ?_⟩
  · rw [readBytes_append, readBytes_cons, readBytes_nil, readByte_do]
  · rw [hrun]
    by_cases hlen : c1.buffer.length > 0 <;> simp [hlen]
  · unfold readChunk
    simp only []
    rw [readBytes_append, readBytes_cons, readBytes_cons, readBytes_nil, readByte_do]
    unfold readByte
    simp

theorem option_mode_dropped_at_chunk_boundary_witness :
    (readBytes ⟨⟨[], false⟩, false, []⟩ ([0x68] ++ [0xfd])).telnet_option_mode = true ∧
    readLines ⟨[], false⟩ [[0x68] ++ [0xfd], [0x01]] =
      (if (⟨[0x68], false⟩ : Connection).buffer.length > 0 then
        (⟨[], (⟨[0x68], false⟩ : Connection).echo⟩,
          [] ++ ([Event.line (⟨[0x68], false⟩ : Connection).buffer] ++
            (if (⟨[0x68], false⟩ : Connection).echo then [Event.raw Newline] else [])))
      else (⟨[0x68], false⟩, [])) ∧
    (readLines ⟨[], false⟩ [[0x68] ++ [0xfd], [0x01]]).1.echo =
      (⟨[0x68], false⟩ : Connection).echo ∧
    (readChunk ⟨[], false⟩ ([0x68] ++ [0xfd, 0x01])).1.echo = true :=
  option_mode_dropped_at_chunk_boundary ⟨[], false⟩ ⟨[0x68], false⟩ [0x68] [] (by decide)

/-- C17. Option byte consumption: in option mode, a byte with the high bit
clear disarms the flag, sets echo exactly when it is `01` (leaving echo as it
was otherwise), and has no other effect: the buffer is unchanged even for a
printable byte, and nothing is sent, neither a raw chunk nor a line. -/
theorem readByte_option_byte (st : Loop) (b : Nat)
    (hm : st.telnet_option_mode = true) (hb : b &&& 0x80 = 0) :
    (readByte st b).telnet_option_mode = false ∧
    (readByte st b).conn.echo = (if b = 0x01 then true else st.conn.echo) ∧
    (readByte st b).conn.buffer = st.conn.buffer ∧
    (readByte st b).sent = st.sent := by
  have h : readByte st b =
      (if b = 0x01 then
        { st with conn := { st.conn with echo := true }, telnet_option_mode := false }
      else { st with telnet_option_mode := false }) := by
    unfold readByte
    rw [highBit_clear_of_and_eq b hb, hm]
    simp
  rw [h]
  by_cases h1 : b = 0x01 <;> simp [h1]

theorem readByte_option_byte_witness :
    (readByte ⟨⟨[0x68], false⟩, true, []⟩ 0x41).telnet_option_mode = false ∧
    (readByte ⟨⟨[0x68], false⟩, true, []⟩ 0x41).conn.echo =
      (if 0x41 = 0x01 then true else false) ∧
    (readByte ⟨⟨[0x68], false⟩, true, []⟩ 0x41).conn.buffer = [0x68] ∧
    (readByte ⟨⟨[0x68], false⟩, true, []⟩ 0x41).sent = [] :=
  readByte_option_byte ⟨⟨[0x68], false⟩, true, []⟩ 0x41 rfl (by decide)

/-- C18. Chunking independence: two ways of splitting the same byte stream
into chunks, neither with option mode armed where chunks meet, give the same
lines, the same raw chunks (the same sends in the same order) and the same
final buffer and echo; this holds in particular when the stream has no `FD`. -/
theorem readLines_chunking_independent (conn : Connection) (cs1 cs2 : List (List Nat))
    (hflat : cs1.flatten = cs2.flatten) :
    (boundariesUnarmed conn cs1 = true → boundariesUnarmed conn cs2 = true →
      readLines conn cs1 = readLines conn cs2 ∧
      lines (readLines conn cs1).2 = lines (readLines conn cs2).2 ∧
      rawChunks (readLines conn cs1).2 = rawChunks (readLines conn cs2).2) ∧
    (0xfd ∉ cs1.flatten → readLines conn cs1 = readLines conn cs2) := by
  have key : boundariesUnarmed conn cs1 = true → boundariesUnarmed conn cs2 = true →
      readLines conn cs1 = readLines conn cs2 := by
    intro h1 h2
    rw [readLines_eq_readChunk_flatten cs1 conn h1, readLines_eq_readChunk_flatten cs2 conn h2,
      hflat]
  refine ⟨?_, ?_⟩
  · intro h1 h2
    have h := key h1 h2
    exact ⟨h, by rw [h], by rw [h]⟩
  · intro hfd
    exact key (boundariesUnarmed_of_no_fd cs1 conn hfd)
      (boundariesUnarmed_of_no_fd cs2 conn (by rw [← hflat]; exact hfd))

theorem readLines_chunking_independent_witness :
    (boundariesUnarmed ⟨[], true⟩ [[0x68, 0xfd, 0x01], [0x69, 0x0d]] = true →
      boundariesUnarmed ⟨[], true⟩ [[0x68], [0xfd, 0x01, 0x69], [0x0d]] = true →
      readLines ⟨[], true⟩ [[0x68, 0xfd, 0x01], [0x69, 0x0d]] =
        readLines ⟨[], true⟩ [[0x68], [0xfd, 0x01, 0x69], [0x0d]] ∧
      lines (readLines ⟨[], true⟩ [[0x68, 0xfd, 0x01], [0x69, 0x0d]]).2 =
        lines (readLines ⟨[], true⟩ [[0x68], [0xfd, 0x01, 0x69], [0x0d]]).2 ∧
      rawChunks (readLines ⟨[], true⟩ [[0x68, 0xfd, 0x01], [0x69, 0x0d]]).2 =
        rawChunks (readLines ⟨[], true⟩ [[0x68], [0xfd, 0x01, 0x69], [0x0d]]).2) ∧
    (0xfd ∉ ([[0x68, 0xfd, 0x01], [0x69, 0x0d]] : List (List Nat)).flatten →
      readLines ⟨[], true⟩ [[0x68, 0xfd, 0x01], [0x69, 0x0d]] =
        readLines ⟨[], true⟩ [[0x68], [0xfd, 0x01, 0x69], [0x0d]]) :=
  readLines_chunking_independent ⟨[], true⟩ [[0x68, 0xfd, 0x01], [0x69, 0x0d]]
    [[0x68], [0xfd, 0x01, 0x69], [0x0d]] (by decide)

/-- C19. Only printable ASCII reaches the application: from an empty buffer,
after any sequence of chunks, every byte in the buffer and every byte of every
delivered line lies in `0x20..0x7E`; so no command byte (`0x80` and above), no
`7F` and no control byte (below `0x20`) appears in a line. -/
theorem only_printable_reaches_application (echo : Bool) (chunks : List (List Nat)) :
    (∀ b ∈ (readLines ⟨[], echo⟩ chunks).1.buffer, 0x20 ≤ b ∧ b ≤ 0x7E) ∧
    (∀ l ∈ lines (readLines ⟨[], echo⟩ chunks).2, ∀ b ∈ l, 0x20 ≤ b ∧ b ≤ 0x7E) ∧
    (∀ l ∈ lines (readLines ⟨[], echo⟩ chunks).2, ∀ b ∈ l,
      b < 0x80 ∧ b ≠ 0x7f ∧ ¬ b < 0x20) := by
  have h := readLines_allPrintable chunks ⟨[], echo⟩ (by intro b hb; cases hb)
  refine ⟨h.1, h.2, ?_⟩
  intro l hl b hb
  have key : ∀ n : Nat, 0x20 ≤ n ∧ n ≤ 0x7E → n < 0x80 ∧ n ≠ 0x7f ∧ ¬ n < 0x20 := by
    intro n hn
    omega
  exact key b (h.2 l hl b hb)

/-- C20. `7F` before echo is negotiated submits the line: with echo off and
option mode not armed, `7F` on a non-empty buffer delivers the whole buffer as
one line, clears the buffer and sends nothing on the raw sink; on an empty
buffer it does nothing. -/
theorem readByte_del_echo_off (st st2 : Loop)
    (he : st.conn.echo = false) (hm : st.telnet_option_mode = false)
    (hbuf : st.conn.buffer ≠ [])
    (_he2 : st2.conn.echo = false) (hm2 : st2.telnet_option_mode = false)
    (hbuf2 : st2.conn.buffer = []) :
    (readByte st 0x7f).sent = st.sent ++ [Event.line st.conn.buffer] ∧
    lines (readByte st 0x7f).sent = lines st.sent ++ [st.conn.buffer] ∧
    rawChunks (readByte st 0x7f).sent = rawChunks st.sent ∧
    (readByte st 0x7f).conn.buffer = [] ∧
    (readByte st 0x7f).conn.echo = false ∧
    readByte st2 0x7f = st2 := by
  have h7 : (0x7f : Nat) &&& 0x80 = 0 := by decide
  have hn : ¬ printable 0x7f := by decide
  have h := readByte_terminator st 0x7f h7 hn (by simp [he]) hm hbuf
  have h2 := readByte_empty_noop st2 0x7f h7 hn hm2 hbuf2
  rw [h]
  refine ⟨by simp [he], by simp [he, lines_append, lines], by simp [he, rawChunks_append, rawChunks],
    rfl, he, h2⟩

theorem readByte_del_echo_off_witness :
    (readByte ⟨⟨[0x68, 0x69], false⟩, false, []⟩ 0x7f).sent =
      [] ++ [Event.line [0x68, 0x69]] ∧
    lines (readByte ⟨⟨[0x68, 0x69], false⟩, false, []⟩ 0x7f).sent = lines [] ++ [[0x68, 0x69]] ∧
    rawChunks (readByte ⟨⟨[0x68, 0x69], false⟩, false, []⟩ 0x7f).sent = rawChunks [] ∧
    (readByte ⟨⟨[0x68, 0x69], false⟩, false, []⟩ 0x7f).conn.buffer = [] ∧
    (readByte ⟨⟨[0x68, 0x69], false⟩, false, []⟩ 0x7f).conn.echo = false ∧
    readByte ⟨⟨[], false⟩, false, []⟩ 0x7f = ⟨⟨[], false⟩, false, []⟩ :=
  readByte_del_echo_off ⟨⟨[0x68, 0x69], false⟩, false, []⟩ ⟨⟨[], false⟩, false, []⟩
    rfl rfl (by decide) rfl rfl rfl

end Core
